import Mathlib

/-!
Verification development for the sendme-tauri upload module
(`src-tauri/src/upload.rs`).

The Rust code is shallowly embedded: strings are lists of characters
(`Str`), filesystem paths are lists of components, the external content
store and transport endpoint are parameters (function-valued records),
and fallible Rust functions return `Except String`.  Machine details that
no claim depends on (stdout printing, async executors, wall-clock sleep)
are not modelled; concurrency with `buffer_unordered` is modelled by an
explicit completion schedule, and the polling loop for address resolution
by a step-indexed poll function.
-/

set_option autoImplicit false

/-- Rust `String` / `&str` contents, modelled as the list of characters.
Non-UTF-8 `OsStr` data (the `to_str() == None` arm of the source) is not
representable here; every modelled name is valid unicode. -/
abbrev Str := List Char

/-- Model of Rust `std::path::Component` (the `Prefix` variant is
Windows-only and never produced on the platforms the code runs on, but it
is kept so that the catch-all arm of the source has its full domain). -/
inductive Component : Type
  | rootDir : Component
  | curDir : Component
  | parentDir : Component
  | prefixComp : Component
  | normal (s : Str) : Component
deriving DecidableEq

/-- Model of Rust `str::split(char)`: splits at every occurrence of the
separator, keeping empty pieces (`"a//b"` gives `["a", "", "b"]`,
`""` gives `[""]`). -/
def splitOnChar (c : Char) : Str → List Str
  | [] => [[]]
  | x :: xs =>
    if x = c then [] :: splitOnChar c xs
    else (x :: (splitOnChar c xs).headD []) :: (splitOnChar c xs).tail

/-- Model of `Vec<&str>::join(sep)`. -/
def joinSep (sep : Str) : List Str → Str
  | [] => []
  | [s] => s
  | s :: rest => s ++ sep ++ joinSep sep rest

/-- Rust `validate_path_component` from `upload.rs` (lines 68-74): the only
check performed is that the component does not contain `'/'`. -/
def validate_path_component (component : Str) : Except String Unit :=
  if component.contains '/' then
    Except.error "path components must not contain the only correct path separator, /"
  else
    Except.ok ()

/-- The component loop of `canonicalized_path_to_string` (lines 89-115):
`Normal` components must contain neither `'/'` nor `'\'`; a `RootDir` is
rejected when `must_be_relative` holds and otherwise pushes one `'/'`
onto the prefix of the output; every other component kind is rejected.
The fold returns the accumulated prefix together with the list of kept
components, short-circuiting at the first error exactly as
`collect::<Result<Vec<_>>>` does. -/
def canonParts (must_be_relative : Bool) : List Component → Except String (Str × List Str)
  | [] => Except.ok ([], [])
  | Component.normal s :: rest =>
    if s.contains '/' || s.contains '\\' then Except.error "invalid path component"
    else
      match canonParts must_be_relative rest with
      | Except.ok pp => Except.ok (pp.1, s :: pp.2)
      | Except.error e => Except.error e
  | Component.rootDir :: rest =>
    if must_be_relative then Except.error "invalid path component"
    else
      match canonParts must_be_relative rest with
      | Except.ok pp => Except.ok ('/' :: pp.1, pp.2)
      | Except.error e => Except.error e
  | _ :: _ => Except.error "invalid path component"

/-- Rust `canonicalized_path_to_string` from `upload.rs` (lines 84-119): the
output is the accumulated prefix (one `'/'` per accepted root marker)
followed by the `'/'`-join of the kept components. -/
def canonicalized_path_to_string (comps : List Component) (must_be_relative : Bool) :
    Except String Str :=
  match canonParts must_be_relative comps with
  | Except.ok pp => Except.ok (pp.1 ++ joinSep ['/'] pp.2)
  | Except.error e => Except.error e

/-- Model of `PathBuf::push` for the arguments that `get_export_path`
produces: pushing a non-empty separator-free string appends one `Normal`
component, pushing the empty string leaves the component list unchanged. -/
def pushComponent (path : List Str) (part : Str) : List Str :=
  if part.isEmpty then path else path ++ [part]

/-- The `for part in parts` loop of `get_export_path` (lines 191-194). -/
def exportPathLoop (path : List Str) : List Str → Except String (List Str)
  | [] => Except.ok path
  | part :: rest =>
    match validate_path_component part with
    | Except.error e => Except.error e
    | Except.ok _ => exportPathLoop (pushComponent path part) rest

/-- Rust `get_export_path` from `upload.rs` (lines 188-196): split the entry
name on `'/'`, validate each piece with `validate_path_component`, and
push each piece onto the export root. -/
def get_export_path (root : List Str) (name : Str) : Except String (List Str) :=
  exportPathLoop root (splitOnChar '/' name)

/-- Modelled from Rust std: `Path::components()` parsing of a unix path
string (used when `canonicalized_path_to_string` is re-applied to its own
output).  A leading `'/'` becomes `RootDir`; the remainder is split on
`'/'`; empty pieces disappear; `"."` is kept (as `CurDir`) only as the
first component of a rootless path and is normalized away elsewhere;
`".."` becomes `ParentDir`; everything else is a `Normal` component. -/
def parseSegs : List Str → Bool → List Component
  | [], _ => []
  | s :: rest, first =>
    if s = ['.'] then
      (if first then [Component.curDir] else []) ++ parseSegs rest false
    else if s = ['.', '.'] then Component.parentDir :: parseSegs rest false
    else Component.normal s :: parseSegs rest false

/-- The non-empty pieces of a path string after the optional root. -/
def splitSegs (s : Str) : List Str :=
  (splitOnChar '/' s).filter (fun t => !t.isEmpty)

/-- Modelled from Rust std: `Path::components()` on a unix path string;
see `parseSegs`. -/
def parsePath (s : Str) : List Component :=
  if s.headD 'A' = '/' then
    Component.rootDir :: parseSegs (splitSegs s.tail) false
  else
    parseSegs (splitSegs s) true

/-- A plain name segment in the sense of the specification: non-empty, no
embedded separator of either flavour, and not a current/parent-directory
marker. -/
def plainSegment (s : Str) : Prop :=
  s ≠ [] ∧ '/' ∉ s ∧ '\\' ∉ s ∧ s ≠ ['.'] ∧ s ≠ ['.', '.']

instance (s : Str) : Decidable (plainSegment s) := by
  unfold plainSegment
  infer_instance

/-! ### Helper lemmas about character lists and splitting -/

lemma contains_eq_false_iff (s : Str) (c : Char) : s.contains c = false ↔ c ∉ s := by
  induction s with
  | nil => simp
  | cons a t ih =>
    simp only [List.contains_cons, Bool.or_eq_false_iff, List.mem_cons, not_or, ih,
      beq_eq_false_iff_ne, ne_eq]

lemma splitOnChar_ne_nil (c : Char) (s : Str) : splitOnChar c s ≠ [] := by
  cases s with
  | nil => simp [splitOnChar]
  | cons x xs =>
    by_cases hx : x = c <;> simp [splitOnChar, hx]

lemma splitOnChar_of_not_mem {c : Char} {s : Str} (h : c ∉ s) : splitOnChar c s = [s] := by
  induction s with
  | nil => rfl
  | cons a t ih =>
    have ha : a ≠ c := by
      intro hac
      exact h (hac ▸ List.mem_cons_self a t)
    have ht : c ∉ t := fun hm => h (List.mem_cons_of_mem a hm)
    simp [splitOnChar, ha, ih ht]

lemma splitOnChar_append_sep {c : Char} {s : Str} (t : Str) (h : c ∉ s) :
    splitOnChar c (s ++ c :: t) = s :: splitOnChar c t := by
  induction s with
  | nil => simp [splitOnChar]
  | cons a s' ih =>
    have ha : a ≠ c := by
      intro hac
      exact h (hac ▸ List.mem_cons_self a s')
    have hs' : c ∉ s' := fun hm => h (List.mem_cons_of_mem a hm)
    simp [splitOnChar, ha, ih hs']

lemma mem_splitOnChar_not_mem (c : Char) (s : Str) :
    ∀ p ∈ splitOnChar c s, c ∉ p := by
  induction s with
  | nil =>
    intro p hp
    simp [splitOnChar] at hp
    simp [hp]
  | cons a t ih =>
    intro p hp
    by_cases ha : a = c
    · simp [splitOnChar, ha] at hp
      rcases hp with hp | hp
      · simp [hp]
      · exact ih p hp
    · simp only [splitOnChar, if_neg ha] at hp
      rcases List.mem_cons.mp hp with hp | hp
      · subst hp
        intro hmem
        rcases List.mem_cons.mp hmem with hc | hc
        · exact ha hc.symm
        · have hhead : (splitOnChar c t).headD [] ∈ splitOnChar c t := by
            rcases hsp : splitOnChar c t with _ | ⟨q, qs⟩
            · exact absurd hsp (splitOnChar_ne_nil c t)
            · simp
          exact ih _ hhead hc
      · exact ih p (List.mem_of_mem_tail hp)

lemma headD_append_of_ne_nil {s : Str} (t : Str) (d : Char) (h : s ≠ []) :
    (s ++ t).headD d = s.headD d := by
  cases s with
  | nil => exact absurd rfl h
  | cons a s' => rfl

lemma joinSep_cons_cons (sep : Str) (s t : Str) (r : List Str) :
    joinSep sep (s :: t :: r) = s ++ sep ++ joinSep sep (t :: r) := rfl

lemma splitSegs_joinSep (segs : List Str) (h : ∀ s ∈ segs, s ≠ [] ∧ '/' ∉ s) :
    splitSegs (joinSep ['/'] segs) = segs := by
  induction segs with
  | nil => rfl
  | cons s rest ih =>
    rcases h s (List.mem_cons_self s rest) with ⟨hne, hsl⟩
    have hrest : ∀ t ∈ rest, t ≠ [] ∧ '/' ∉ t := fun t ht => h t (List.mem_cons_of_mem s ht)
    cases rest with
    | nil =>
      simp only [joinSep, splitSegs, splitOnChar_of_not_mem hsl]
      simp [List.isEmpty_iff, hne]
    | cons t r =>
      have hj : joinSep ['/'] (s :: t :: r) = s ++ '/' :: joinSep ['/'] (t :: r) := by
        rw [joinSep_cons_cons]
        simp
      rw [hj]
      simp only [splitSegs, splitOnChar_append_sep _ hsl, List.filter_cons]
      have : (!s.isEmpty) = true := by simp [List.isEmpty_iff, hne]
      rw [if_pos this]
      have ihr := ih hrest
      simp only [splitSegs] at ihr
      rw [ihr]

lemma parseSegs_all_normal (segs : List Str)
    (h : ∀ s ∈ segs, s ≠ ['.'] ∧ s ≠ ['.', '.']) :
    ∀ b : Bool, parseSegs segs b = segs.map Component.normal := by
  induction segs with
  | nil => intro b; rfl
  | cons s rest ih =>
    intro b
    rcases h s (List.mem_cons_self s rest) with ⟨h1, h2⟩
    have hrest : ∀ t ∈ rest, t ≠ ['.'] ∧ t ≠ ['.', '.'] :=
      fun t ht => h t (List.mem_cons_of_mem s ht)
    simp [parseSegs, h1, h2, ih hrest]

lemma canonParts_map_normal (comps : List Str) (mbr : Bool)
    (h : ∀ c ∈ comps, '/' ∉ c ∧ '\\' ∉ c) :
    canonParts mbr (comps.map Component.normal) = Except.ok ([], comps) := by
  induction comps with
  | nil => rfl
  | cons c cs ih =>
    rcases h c (List.mem_cons_self c cs) with ⟨h1, h2⟩
    have hcs : ∀ t ∈ cs, '/' ∉ t ∧ '\\' ∉ t := fun t ht => h t (List.mem_cons_of_mem c ht)
    have hc1 : c.contains '/' = false := (contains_eq_false_iff c '/').mpr h1
    have hc2 : c.contains '\\' = false := (contains_eq_false_iff c '\\').mpr h2
    simp only [List.map_cons, canonParts, hc1, hc2, Bool.or_self, Bool.false_eq_true,
      if_false, ih hcs]

lemma canon_map_normal_ok (comps : List Str) (mbr : Bool)
    (h : ∀ c ∈ comps, '/' ∉ c ∧ '\\' ∉ c) :
    canonicalized_path_to_string (comps.map Component.normal) mbr =
      Except.ok (joinSep ['/'] comps) := by
  simp [canonicalized_path_to_string, canonParts_map_normal comps mbr h]

lemma joinSep_head_cons (c : Str) (cs : List Str) :
    ∃ t, joinSep ['/'] (c :: cs) = c ++ t := by
  cases cs with
  | nil => exact ⟨[], by simp [joinSep]⟩
  | cons t r =>
    refine ⟨'/' :: joinSep ['/'] (t :: r), ?_⟩
    rw [joinSep_cons_cons]
    simp

lemma parsePath_joinSep (comps : List Str) (h : ∀ c ∈ comps, plainSegment c) :
    parsePath (joinSep ['/'] comps) = comps.map Component.normal := by
  have hsplit : splitSegs (joinSep ['/'] comps) = comps :=
    splitSegs_joinSep comps (fun s hs => ⟨(h s hs).1, (h s hs).2.1⟩)
  cases comps with
  | nil => rfl
  | cons c cs =>
    rcases h c (List.mem_cons_self c cs) with ⟨hne, hsl, _, _, _⟩
    rcases joinSep_head_cons c cs with ⟨t, ht⟩
    have hhead : (joinSep ['/'] (c :: cs)).headD 'A' ≠ '/' := by
      rw [ht, headD_append_of_ne_nil t 'A' hne]
      cases c with
      | nil => exact absurd rfl hne
      | cons ch c' =>
        simp only [List.headD_cons]
        intro hch
        exact hsl (hch ▸ List.mem_cons_self ch c')
    rw [parsePath, if_neg hhead, hsplit]
    exact parseSegs_all_normal (c :: cs)
      (fun s hs => ⟨(h s hs).2.2.2.1, (h s hs).2.2.2.2⟩) true

/-! ### Claim C7 -/

/-- C7: for every relative path whose components are all plain name
segments (non-empty, no embedded `'/'` or `'\'`, not `"."` or `".."`),
`canonicalized_path_to_string` succeeds, and applying it to the parse of
its own output yields the same string (canonicalization is a fixed
point). -/
theorem c7_canonicalization_fixed_point (comps : List Str) (must_be_relative : Bool)
    (h : ∀ c ∈ comps, plainSegment c) :
    canonicalized_path_to_string (comps.map Component.normal) must_be_relative =
      Except.ok (joinSep ['/'] comps) ∧
    canonicalized_path_to_string (parsePath (joinSep ['/'] comps)) must_be_relative =
      Except.ok (joinSep ['/'] comps) := by
  have hv : ∀ c ∈ comps, '/' ∉ c ∧ '\\' ∉ c := fun c hc => ⟨(h c hc).2.1, (h c hc).2.2.1⟩
  refine ⟨canon_map_normal_ok comps must_be_relative hv, ?_⟩
  rw [parsePath_joinSep comps h]
  exact canon_map_normal_ok comps must_be_relative hv

/-- Witness for C7 at the concrete path `a/bc`. -/
theorem c7_canonicalization_fixed_point_witness :
    canonicalized_path_to_string ([['a'], ['b', 'c']].map Component.normal) true =
      Except.ok ['a', '/', 'b', 'c'] ∧
    canonicalized_path_to_string (parsePath ['a', '/', 'b', 'c']) true =
      Except.ok ['a', '/', 'b', 'c'] :=
  c7_canonicalization_fixed_point [['a'], ['b', 'c']] true (by decide)

/-! ### Claim C8 -/

/-- C8: a path beginning with a root marker is accepted iff
`must_be_relative` is false; when accepted the root marker contributes
exactly one leading `'/'` to the output, and when `must_be_relative` is
true the call fails with the invalid-path error. -/
theorem c8_root_marker_iff (rest : List Str) (h : ∀ c ∈ rest, plainSegment c) :
    canonicalized_path_to_string (Component.rootDir :: rest.map Component.normal) true =
      Except.error "invalid path component" ∧
    canonicalized_path_to_string (Component.rootDir :: rest.map Component.normal) false =
      Except.ok ('/' :: joinSep ['/'] rest) := by
  constructor
  · simp [canonicalized_path_to_string, canonParts]
  · have hv : ∀ c ∈ rest, '/' ∉ c ∧ '\\' ∉ c := fun c hc => ⟨(h c hc).2.1, (h c hc).2.2.1⟩
    simp [canonicalized_path_to_string, canonParts, canonParts_map_normal rest false hv]

/-- Witness for C8 at the concrete absolute path `/a/b`. -/
theorem c8_root_marker_iff_witness :
    canonicalized_path_to_string
        (Component.rootDir :: [['a'], ['b']].map Component.normal) true =
      Except.error "invalid path component" ∧
    canonicalized_path_to_string
        (Component.rootDir :: [['a'], ['b']].map Component.normal) false =
      Except.ok ['/', 'a', '/', 'b'] :=
  c8_root_marker_iff [['a'], ['b']] (by decide)

/-! ### Claim C1 -/

/-- C1 counterexample: `validate_path_component` accepts the
parent-directory marker `".."` and a component containing `'\'`, and
`get_export_path` therefore composes a destination that escapes the
export root (`root/..`), instead of failing with an invalid-path error as
the claim states. -/
theorem c1_dotdot_component_accepted :
    validate_path_component ['.', '.'] = Except.ok () ∧
    validate_path_component ['a', '\\', 'b'] = Except.ok () ∧
    get_export_path [['r', 'o', 'o', 't']] ['.', '.'] =
      Except.ok [['r', 'o', 'o', 't'], ['.', '.']] :=
  ⟨rfl, rfl, rfl⟩

lemma exportPathLoop_ok (parts : List Str) :
    ∀ acc : List Str, (∀ p ∈ parts, '/' ∉ p) →
      exportPathLoop acc parts =
        Except.ok (acc ++ parts.filter (fun p => !p.isEmpty)) := by
  induction parts with
  | nil => intro acc _; simp [exportPathLoop]
  | cons p rest ih =>
    intro acc h
    have hp : p.contains '/' = false :=
      (contains_eq_false_iff p '/').mpr (h p (List.mem_cons_self p rest))
    have hrest : ∀ q ∈ rest, '/' ∉ q := fun q hq => h q (List.mem_cons_of_mem p hq)
    simp only [exportPathLoop, validate_path_component, hp, Bool.false_eq_true, if_false]
    rw [ih (pushComponent acc p) hrest]
    by_cases hpe : p.isEmpty
    · simp [pushComponent, hpe, List.filter_cons]
    · simp only [pushComponent, hpe, if_false, List.filter_cons]
      simp only [hpe, Bool.not_false, if_pos]
      simp

/-- C1 amended: the export-path computation never rejects any entry name:
splitting on `'/'` means no produced component can contain `'/'`, which
is the only property `validate_path_component` checks, so every name maps
to the export root extended by its non-empty `'/'`-separated pieces —
including pieces equal to `".."` or `"."` or containing `'\'`, which can
escape the export root. -/
theorem c1_export_path_never_rejects (root : List Str) (name : Str) :
    get_export_path root name =
      Except.ok (root ++ (splitOnChar '/' name).filter (fun p => !p.isEmpty)) :=
  exportPathLoop_ok (splitOnChar '/' name) root (mem_splitOnChar_not_mem '/' name)

/-! ### Filesystem model and the import pipeline -/

/-- A filesystem subtree as seen by the walk: regular files carry their
byte contents, directories carry their children in listing order, and
symbolic links carry a target (never followed). -/
inductive FsEntry : Type
  | file (name : Str) (contents : List Nat) : FsEntry
  | dir (name : Str) (children : List FsEntry) : FsEntry
  | symlink (name : Str) (target : Str) : FsEntry

/-- What `WalkDir` reports for one visited entry: its kind (with contents
for regular files). `entry.file_type().is_file()` is true exactly for the
`file` variant — symlinks are not followed. -/
inductive EKind : Type
  | file (contents : List Nat) : EKind
  | dirK : EKind
  | symlinkK : EKind

mutual

/-- Model of `WalkDir::new(path)` (lines 136-146): depth-first walk that
yields the root entry first and then, for directories, every child
subtree in listing order.  Each yielded entry is the path relative to the
parent of the walk root (the components pushed so far plus the entry's
own name) together with its kind. -/
def walkEntries (pre : List Str) : FsEntry → List (List Str × EKind)
  | FsEntry.file n c => [(pre ++ [n], EKind.file c)]
  | FsEntry.symlink n _ => [(pre ++ [n], EKind.symlinkK)]
  | FsEntry.dir n cs => (pre ++ [n], EKind.dirK) :: walkList (pre ++ [n]) cs

/-- The walk over a list of sibling entries. -/
def walkList (pre : List Str) : List FsEntry → List (List Str × EKind)
  | [] => []
  | e :: es => walkEntries pre e ++ walkList pre es

end

mutual

/-- The number of regular files in a subtree (symlinks and directories
count zero). -/
def countFiles : FsEntry → Nat
  | FsEntry.file _ _ => 1
  | FsEntry.symlink _ _ => 0
  | FsEntry.dir _ cs => countFilesList cs

/-- The number of regular files in a list of sibling subtrees. -/
def countFilesList : List FsEntry → Nat
  | [] => 0
  | e :: es => countFiles e + countFilesList es

end

/-- The `!entry.file_type().is_file()` filter of the walk (lines
142-145): keep exactly the regular files, with their relative paths. -/
def fileEntries : List (List Str × EKind) → List (List Str × List Nat)
  | [] => []
  | (p, EKind.file c) :: rest => (p, c) :: fileEntries rest
  | (_, EKind.dirK) :: rest => fileEntries rest
  | (_, EKind.symlinkK) :: rest => fileEntries rest

/-- Model of `collect::<Result<Vec<_>>>`: first error wins, otherwise the list of
successes in order. -/
def collectExcept {α : Type} : List (Except String α) → Except String (List α)
  | [] => Except.ok []
  | Except.error e :: _ => Except.error e
  | Except.ok a :: rest =>
    match collectExcept rest with
    | Except.ok l => Except.ok (a :: l)
    | Except.error e => Except.error e

/-- The `data_sources` list of `import` (lines 139-152): every regular
file of the walk, named by `canonicalized_path_to_string` applied to its
path relative to the parent of the root, with the first canonicalization
error aborting the whole list. -/
def dataSources (root : FsEntry) : Except String (List (Str × List Nat)) :=
  collectExcept ((fileEntries (walkEntries [] root)).map fun pc =>
    match canonicalized_path_to_string (pc.1.map Component.normal) true with
    | Except.ok n => Except.ok (n, pc.2)
    | Except.error e => Except.error e)

/-- The external content store (spec §6), parameterized by the type of
content identities.  `importFile` models
`db.import_file(path, TryReference, Raw, progress)` returning a
protection token (carrying the identity) and the reported byte size;
`storeCollection` models `collection.store(&db)` returning the
collection's own token/root identity. -/
structure Store (H : Type) where
  importFile : List Nat → Except String (H × Nat)
  storeCollection : List (Str × H) → Except String H

/-- One step of `buffer_unordered(w)`, driven by an explicit completion
schedule: the buffer holds at most `w` in-flight items in submission
order; at each step the schedule picks which in-flight item completes
next (index modulo the buffer length); the buffer is refilled from the
pending input.  The fuel argument is the total number of items and makes
the recursion structural. -/
def buStepF {α : Type} (w : Nat) : Nat → List Nat → List α → List α → List α
  | 0, _, _, _ => []
  | _ + 1, _, [], _ => []
  | f + 1, sched, b :: bs, pend =>
    (b :: bs).getD (sched.headD 0 % (b :: bs).length) b ::
      buStepF w f sched.tail
        ((b :: bs).eraseIdx (sched.headD 0 % (b :: bs).length) ++
          pend.take (w - ((b :: bs).eraseIdx (sched.headD 0 % (b :: bs).length)).length))
        (pend.drop (w - ((b :: bs).eraseIdx (sched.headD 0 % (b :: bs).length)).length))

/-- Model of `futures::stream::iter(xs).map(..).buffer_unordered(w)` collected to a
vector: the outputs are the inputs, reordered according to the completion
schedule, with at most `w` items in flight at any time. -/
def bufferUnordered {α : Type} (w : Nat) (sched : List Nat) (xs : List α) : List α :=
  buStepF w xs.length sched (xs.take w) (xs.drop w)

/-- The per-file ingestion results in completion order (lines 156-171):
each data source is paired with the store's answer for its contents. -/
def ingestOutputs {H : Type} (st : Store H) (w : Nat) (sched : List Nat)
    (ds : List (Str × List Nat)) : List (Str × Except String (H × Nat)) :=
  bufferUnordered w sched (ds.map fun nb => (nb.1, st.importFile nb.2))

/-- Observable events of one `import` call, used to state the ordering of
the protection-token hand-off: a file ingestion finishing, the collection
being persisted by the store, and `drop(tags)` releasing the per-file
protection tokens. -/
inductive Ev : Type
  | ingested (name : Str) : Ev
  | persistedCollection : Ev
  | releasedFileTags : Ev
deriving DecidableEq

/-- The ingestion part of the trace: one event per file, in completion
order. -/
def ingestTraceOf {H : Type} (st : Store H) (w : Nat) (sched : List Nat)
    (ds : List (Str × List Nat)) : List Ev :=
  (ingestOutputs st w sched ds).map fun o => Ev.ingested o.1

/-- Model of `collect::<Result<Vec<_>>>` over the completion-ordered ingestion
results (line 171): first error in completion order wins. -/
def collectIngest {H : Type} :
    List (Str × Except String (H × Nat)) → Except String (List (Str × H × Nat))
  | [] => Except.ok []
  | (n, Except.ok hs) :: rest =>
    match collectIngest rest with
    | Except.ok l => Except.ok ((n, hs.1, hs.2) :: l)
    | Except.error e => Except.error e
  | (_, Except.error e) :: _ => Except.error e

/-- Rust `import` from `upload.rs` (lines 128-186), paired with its event
trace.  On success the result is the collection's protection token (its
root identity), the total size, and the `(name, identity)` collection in
completion order; `drop(tags)` — the release of the per-file tokens — is
sequenced strictly after the successful `collection.store(&db)`, exactly
as in the source, and on any failure the function returns the error and
hands nothing to the caller. -/
def importM {H : Type} (st : Store H) (w : Nat) (sched : List Nat) (root : FsEntry) :
    Except String (H × Nat × List (Str × H)) × List Ev :=
  match dataSources root with
  | Except.error e => (Except.error e, [])
  | Except.ok ds =>
    match collectIngest (ingestOutputs st w sched ds) with
    | Except.error e => (Except.error e, ingestTraceOf st w sched ds)
    | Except.ok nts =>
      match st.storeCollection (nts.map fun x => (x.1, x.2.1)) with
      | Except.error e => (Except.error e, ingestTraceOf st w sched ds)
      | Except.ok tag =>
        (Except.ok (tag, (nts.map fun x => x.2.2).sum, nts.map fun x => (x.1, x.2.1)),
          ingestTraceOf st w sched ds ++ [Ev.persistedCollection, Ev.releasedFileTags])

/-- The byte size the store reports for given contents (0 if ingestion of
those contents fails — unused on success paths). -/
def reportedSize {H : Type} (st : Store H) (b : List Nat) : Nat :=
  match st.importFile b with
  | Except.ok hs => hs.2
  | Except.error _ => 0

/-! ### Lemmas about the completion-scheduled buffer -/

lemma getD_cons_eraseIdx_perm {α : Type} (l : List α) (d : α) (k : Nat)
    (hk : k < l.length) : List.Perm (l.getD k d :: l.eraseIdx k) l := by
  induction l generalizing k with
  | nil => simp at hk
  | cons x xs ih =>
    cases k with
    | zero =>
      simp only [List.getD_cons_zero, List.eraseIdx_cons_zero]
      exact List.Perm.refl _
    | succ j =>
      have hj : j < xs.length := by simpa using hk
      simp only [List.getD_cons_succ, List.eraseIdx_cons_succ]
      exact (List.Perm.swap x (xs.getD j d) (xs.eraseIdx j)).trans ((ih j hj).cons x)

lemma buStepF_perm {α : Type} (w : Nat) (hw : 1 ≤ w) :
    ∀ (f : Nat) (sched : List Nat) (buf pend : List α),
      buf.length + pend.length ≤ f → (pend ≠ [] → buf ≠ []) →
      List.Perm (buStepF w f sched buf pend) (buf ++ pend) := by
  intro f
  induction f with
  | zero =>
    intro sched buf pend hlen _
    have hb : buf = [] := by
      cases buf with
      | nil => rfl
      | cons x xs => simp at hlen
    subst hb
    have hp : pend = [] := by
      cases pend with
      | nil => rfl
      | cons x xs => simp at hlen
    subst hp
    exact List.Perm.refl _
  | succ n ih =>
    intro sched buf pend hlen hinv
    cases buf with
    | nil =>
      have hp : pend = [] := by
        by_contra hne
        exact hinv hne rfl
      subst hp
      exact List.Perm.refl _
    | cons b bs =>
      have hpos : 0 < (b :: bs).length := by simp
      have hklt : sched.headD 0 % (b :: bs).length < (b :: bs).length :=
        Nat.mod_lt _ hpos
      have hlenerase :
          ((b :: bs).eraseIdx (sched.headD 0 % (b :: bs).length)).length = bs.length := by
        rw [List.length_eraseIdx_of_lt hklt]
        simp
      have hlen1 : (b :: bs).length + pend.length ≤ n + 1 := hlen
      simp only [List.length_cons] at hlen1
      have hrec : List.Perm
          (buStepF w n sched.tail
            ((b :: bs).eraseIdx (sched.headD 0 % (b :: bs).length) ++
              pend.take (w - ((b :: bs).eraseIdx (sched.headD 0 % (b :: bs).length)).length))
            (pend.drop (w - ((b :: bs).eraseIdx (sched.headD 0 % (b :: bs).length)).length)))
          (((b :: bs).eraseIdx (sched.headD 0 % (b :: bs).length) ++
              pend.take (w - ((b :: bs).eraseIdx (sched.headD 0 % (b :: bs).length)).length)) ++
            pend.drop (w - ((b :: bs).eraseIdx (sched.headD 0 % (b :: bs).length)).length)) := by
        apply ih
        · simp only [List.length_append, hlenerase, List.length_take, List.length_drop]
          omega
        · intro hpd hcon
          rcases List.append_eq_nil.mp hcon with ⟨hb', ht'⟩
          have hpend_ne : pend ≠ [] := by
            intro hpe
            rw [hpe, List.drop_nil] at hpd
            exact hpd rfl
          rcases List.take_eq_nil_iff.mp ht' with hm0 | hpe
          · have hbs0 : bs.length = 0 := by
              rw [← hlenerase, hb']
              rfl
            rw [hlenerase, hbs0] at hm0
            omega
          · exact hpend_ne hpe
      have heq :
          (((b :: bs).eraseIdx (sched.headD 0 % (b :: bs).length) ++
              pend.take (w - ((b :: bs).eraseIdx (sched.headD 0 % (b :: bs).length)).length)) ++
            pend.drop (w - ((b :: bs).eraseIdx (sched.headD 0 % (b :: bs).length)).length)) =
          (b :: bs).eraseIdx (sched.headD 0 % (b :: bs).length) ++ pend := by
        rw [List.append_assoc, List.take_append_drop]
      rw [heq] at hrec
      show List.Perm
        ((b :: bs).getD (sched.headD 0 % (b :: bs).length) b ::
          buStepF w n sched.tail
            ((b :: bs).eraseIdx (sched.headD 0 % (b :: bs).length) ++
              pend.take (w - ((b :: bs).eraseIdx (sched.headD 0 % (b :: bs).length)).length))
            (pend.drop (w - ((b :: bs).eraseIdx (sched.headD 0 % (b :: bs).length)).length)))
        ((b :: bs) ++ pend)
      refine List.Perm.trans (hrec.cons _) ?_
      have hfront := getD_cons_eraseIdx_perm (b :: bs) b
        (sched.headD 0 % (b :: bs).length) hklt
      exact hfront.append_right pend

lemma bufferUnordered_perm {α : Type} (w : Nat) (hw : 1 ≤ w) (sched : List Nat)
    (xs : List α) : List.Perm (bufferUnordered w sched xs) xs := by
  have hlen : (xs.take w).length + (xs.drop w).length = xs.length := by
    rw [← List.length_append, List.take_append_drop]
  have hinv : xs.drop w ≠ [] → xs.take w ≠ [] := by
    intro hd ht
    rcases List.take_eq_nil_iff.mp ht with h0 | hxe
    · omega
    · rw [hxe, List.drop_nil] at hd
      exact hd rfl
  have h := buStepF_perm w hw xs.length sched (xs.take w) (xs.drop w)
    (le_of_eq hlen) hinv
  rw [List.take_append_drop] at h
  exact h

/-! ### Inversion lemmas for the import pipeline -/

lemma collectExcept_ok_length {α : Type} :
    ∀ (l : List (Except String α)) (r : List α),
      collectExcept l = Except.ok r → r.length = l.length := by
  intro l
  induction l with
  | nil =>
    intro r h
    simp only [collectExcept, Except.ok.injEq] at h
    rw [← h]
    rfl
  | cons a rest ih =>
    intro r h
    cases a with
    | error e => simp [collectExcept] at h
    | ok v =>
      simp only [collectExcept] at h
      cases hres : collectExcept rest with
      | error e => rw [hres] at h; simp at h
      | ok l' =>
        rw [hres] at h
        simp only [Except.ok.injEq] at h
        rw [← h]
        simp [ih l' hres]

lemma collectIngest_ok {H : Type} :
    ∀ (l : List (Str × Except String (H × Nat))) (r : List (Str × H × Nat)),
      collectIngest l = Except.ok r →
      l = r.map fun x => (x.1, Except.ok (x.2.1, x.2.2)) := by
  intro l
  induction l with
  | nil =>
    intro r h
    simp only [collectIngest, Except.ok.injEq] at h
    rw [← h]
    rfl
  | cons a rest ih =>
    intro r h
    rcases a with ⟨n, ea⟩
    cases ea with
    | error e => simp [collectIngest] at h
    | ok hs =>
      simp only [collectIngest] at h
      cases hres : collectIngest rest with
      | error e => rw [hres] at h; simp at h
      | ok l' =>
        rw [hres] at h
        simp only [Except.ok.injEq] at h
        rw [← h]
        simp only [List.map_cons, List.cons.injEq]
        exact ⟨trivial, ih l' hres⟩

lemma fileEntries_append (a b : List (List Str × EKind)) :
    fileEntries (a ++ b) = fileEntries a ++ fileEntries b := by
  induction a with
  | nil => rfl
  | cons x rest ih =>
    rcases x with ⟨p, k⟩
    cases k <;> simp [fileEntries, ih]

mutual

lemma fileEntries_walkEntries_length (pre : List Str) (t : FsEntry) :
    (fileEntries (walkEntries pre t)).length = countFiles t := by
  cases t with
  | file n c => simp [walkEntries, fileEntries, countFiles]
  | symlink n tg => simp [walkEntries, fileEntries, countFiles]
  | dir n cs =>
    simp only [walkEntries, fileEntries, countFiles]
    exact fileEntries_walkList_length (pre ++ [n]) cs

lemma fileEntries_walkList_length (pre : List Str) (cs : List FsEntry) :
    (fileEntries (walkList pre cs)).length = countFilesList cs := by
  cases cs with
  | nil => simp [walkList, fileEntries, countFilesList]
  | cons c cs' =>
    simp only [walkList, countFilesList, fileEntries_append, List.length_append]
    rw [fileEntries_walkEntries_length pre c, fileEntries_walkList_length pre cs']

end

lemma importM_ok_inv {H : Type} (st : Store H) (w : Nat) (sched : List Nat) (t : FsEntry)
    (tag : H) (size : Nat) (coll : List (Str × H)) (tr : List Ev)
    (h : importM st w sched t = (Except.ok (tag, size, coll), tr)) :
    ∃ ds nts, dataSources t = Except.ok ds ∧
      collectIngest (ingestOutputs st w sched ds) = Except.ok nts ∧
      size = (nts.map fun x => x.2.2).sum ∧
      coll = nts.map (fun x => (x.1, x.2.1)) ∧
      st.storeCollection coll = Except.ok tag ∧
      tr = ingestTraceOf st w sched ds ++ [Ev.persistedCollection, Ev.releasedFileTags] := by
  unfold importM at h
  cases hds : dataSources t with
  | error e => rw [hds] at h; simp at h
  | ok ds =>
    rw [hds] at h
    dsimp only at h
    cases hci : collectIngest (ingestOutputs st w sched ds) with
    | error e => rw [hci] at h; simp at h
    | ok nts =>
      rw [hci] at h
      dsimp only at h
      cases hsc : st.storeCollection (nts.map fun x => (x.1, x.2.1)) with
      | error e => rw [hsc] at h; simp at h
      | ok tg =>
        rw [hsc] at h
        dsimp only at h
        simp only [Prod.mk.injEq, Except.ok.injEq] at h
        obtain ⟨⟨htag, hsize, hcoll⟩, htr⟩ := h
        refine ⟨ds, nts, rfl, hci, hsize.symm, hcoll.symm, ?_, htr.symm⟩
        rw [← hcoll, ← htag]
        exact hsc

lemma releasedFileTags_not_mem_ingestTrace {H : Type} (st : Store H) (w : Nat)
    (sched : List Nat) (ds : List (Str × List Nat)) :
    Ev.releasedFileTags ∉ ingestTraceOf st w sched ds := by
  simp [ingestTraceOf]

lemma importM_error_no_release {H : Type} (st : Store H) (w : Nat) (sched : List Nat)
    (t : FsEntry) (e : String) (tr : List Ev)
    (h : importM st w sched t = (Except.error e, tr)) :
    Ev.releasedFileTags ∉ tr := by
  unfold importM at h
  cases hds : dataSources t with
  | error e' =>
    rw [hds] at h
    simp only [Prod.mk.injEq] at h
    rw [← h.2]
    simp
  | ok ds =>
    rw [hds] at h
    dsimp only at h
    cases hci : collectIngest (ingestOutputs st w sched ds) with
    | error e' =>
      rw [hci] at h
      dsimp only at h
      simp only [Prod.mk.injEq] at h
      rw [← h.2]
      exact releasedFileTags_not_mem_ingestTrace st w sched ds
    | ok nts =>
      rw [hci] at h
      dsimp only at h
      cases hsc : st.storeCollection (nts.map fun x => (x.1, x.2.1)) with
      | error e' =>
        rw [hsc] at h
        dsimp only at h
        simp only [Prod.mk.injEq] at h
        rw [← h.2]
        exact releasedFileTags_not_mem_ingestTrace st w sched ds
      | ok tg => rw [hsc] at h; simp at h

/-! ### Concrete fixtures used by counterexamples and witnesses -/

/-- A total concrete store over `Nat` identities: the identity of some
contents is their first byte, the reported size their length, and every
collection persists with root identity 99. -/
def sampleStore : Store Nat where
  importFile := fun b => Except.ok (b.headD 0, b.length)
  storeCollection := fun _ => Except.ok 99

/-- A directory `d` with two files `a` and `b`. -/
def sampleTree : FsEntry :=
  FsEntry.dir ['d'] [FsEntry.file ['a'] [10], FsEntry.file ['b'] [20]]

/-- A directory `d` with a file, a symlink and a subdirectory with one
more file: two regular files in total. -/
def symlinkTree : FsEntry :=
  FsEntry.dir ['d']
    [FsEntry.file ['a'] [1], FsEntry.symlink ['s'] ['a'],
      FsEntry.dir ['u'] [FsEntry.file ['b'] [2, 3]]]

/-- A directory `d` containing one regular file whose (legal unix) name
contains a backslash. -/
def backslashTree : FsEntry :=
  FsEntry.dir ['d'] [FsEntry.file ['a', '\\', 'b'] [1]]

/-- A single regular file `g` of one byte. -/
def singleFile : FsEntry := FsEntry.file ['g'] [7]

/-- A single regular file `p` of 1024 zero bytes. -/
def bigFile : FsEntry := FsEntry.file ['p'] (List.replicate 1024 0)

/-! ### Claim C3 -/

/-- C3 counterexample: the walk enumerates `d/a` then `d/b`, but with
window 2 and a completion schedule on which the second ingestion finishes
first, `buffer_unordered` yields `d/b` first and the persisted collection
lists `d/b` before `d/a`: the i-th collection entry is not the i-th
walked file. -/
theorem c3_completion_order_reorders_collection :
    dataSources sampleTree =
      Except.ok [(['d', '/', 'a'], [10]), (['d', '/', 'b'], [20])] ∧
    (importM sampleStore 2 [1] sampleTree).1 =
      Except.ok (99, 2, [(['d', '/', 'b'], 20), (['d', '/', 'a'], 10)]) :=
  ⟨rfl, rfl⟩

/-- C3 amended: with at least one worker, the names of the persisted
collection are a permutation of the names produced by the directory
traversal — the multiset of entries is that of the walk, but the order is
the completion order of the concurrent ingestions, not necessarily the
traversal order. -/
theorem c3_collection_permutation_of_walk {H : Type} (st : Store H) (w : Nat)
    (sched : List Nat) (t : FsEntry) (ds : List (Str × List Nat)) (tag : H)
    (size : Nat) (coll : List (Str × H)) (tr : List Ev) (hw : 1 ≤ w)
    (hds : dataSources t = Except.ok ds)
    (h : importM st w sched t = (Except.ok (tag, size, coll), tr)) :
    List.Perm (coll.map Prod.fst) (ds.map Prod.fst) := by
  obtain ⟨ds0, nts, hds0, hci, hsize, hcoll, hsc, htr⟩ :=
    importM_ok_inv st w sched t tag size coll tr h
  have hdseq : ds0 = ds := Except.ok.inj (hds0.symm.trans hds)
  subst hdseq
  have houts := collectIngest_ok (ingestOutputs st w sched ds0) nts hci
  have hperm : List.Perm (ingestOutputs st w sched ds0)
      (ds0.map fun nb => (nb.1, st.importFile nb.2)) :=
    bufferUnordered_perm w hw sched _
  have h1 : coll.map Prod.fst = nts.map fun x => x.1 := by
    rw [hcoll, List.map_map]
    rfl
  have h2 : (ingestOutputs st w sched ds0).map Prod.fst = nts.map fun x => x.1 := by
    rw [houts, List.map_map]
    rfl
  rw [h1, ← h2]
  have h3 := hperm.map Prod.fst
  rw [List.map_map] at h3
  exact h3

/-- Witness for the amended C3 at the concrete reordering input. -/
theorem c3_collection_permutation_of_walk_witness :
    List.Perm [['d', '/', 'b'], ['d', '/', 'a']] [['d', '/', 'a'], ['d', '/', 'b']] :=
  c3_collection_permutation_of_walk sampleStore 2 [1] sampleTree
    [(['d', '/', 'a'], [10]), (['d', '/', 'b'], [20])] 99 2
    [(['d', '/', 'b'], 20), (['d', '/', 'a'], 10)]
    [Ev.ingested ['d', '/', 'b'], Ev.ingested ['d', '/', 'a'],
      Ev.persistedCollection, Ev.releasedFileTags]
    (by decide) rfl rfl

/-! ### Claim C4 -/

/-- C4: in every run of `import`, the per-file protection tokens are
released only as the last event, immediately after the collection has
been successfully persisted (they are never released on a failing run);
on success the returned token is exactly the one `storeCollection`
produced for the persisted collection, and on any ingestion or
persistence failure the function returns an error (so nothing is handed
to the caller). -/
theorem c4_tokens_released_after_persist {H : Type} (st : Store H) (w : Nat)
    (sched : List Nat) (t : FsEntry)
    (res : Except String (H × Nat × List (Str × H))) (tr : List Ev)
    (h : importM st w sched t = (res, tr)) :
    ((Ev.releasedFileTags ∈ tr) ↔ ∃ x, res = Except.ok x) ∧
    ((∃ tr0, tr = tr0 ++ [Ev.persistedCollection, Ev.releasedFileTags] ∧
        Ev.releasedFileTags ∉ tr0) ∨ Ev.releasedFileTags ∉ tr) ∧
    (∀ tag size coll, res = Except.ok (tag, size, coll) →
      st.storeCollection coll = Except.ok tag) := by
  cases res with
  | error e =>
    have hnr := importM_error_no_release st w sched t e tr h
    refine ⟨⟨fun hm => absurd hm hnr, ?_⟩, Or.inr hnr, ?_⟩
    · rintro ⟨x, hx⟩
      simp at hx
    · intro tag size coll hx
      simp at hx
  | ok x =>
    rcases x with ⟨tag, size, coll⟩
    obtain ⟨ds, nts, hds, hci, hsize, hcoll, hsc, htr⟩ :=
      importM_ok_inv st w sched t tag size coll tr h
    subst htr
    refine ⟨⟨fun _ => ⟨(tag, size, coll), rfl⟩, fun _ => by simp⟩,
      Or.inl ⟨ingestTraceOf st w sched ds, rfl,
        releasedFileTags_not_mem_ingestTrace st w sched ds⟩, ?_⟩
    intro tag' size' coll' hx
    simp only [Except.ok.injEq, Prod.mk.injEq] at hx
    obtain ⟨h1, _, h3⟩ := hx
    subst h1
    subst h3
    exact hsc

/-- Witness for C4 at a one-file import that succeeds end to end. -/
theorem c4_tokens_released_after_persist_witness :
    ((Ev.releasedFileTags ∈
        [Ev.ingested ['g'], Ev.persistedCollection, Ev.releasedFileTags]) ↔
      ∃ x, (Except.ok (99, 1, [(['g'], 7)]) :
          Except String (Nat × Nat × List (Str × Nat))) = Except.ok x) ∧
    ((∃ tr0, [Ev.ingested ['g'], Ev.persistedCollection, Ev.releasedFileTags] =
        tr0 ++ [Ev.persistedCollection, Ev.releasedFileTags] ∧
        Ev.releasedFileTags ∉ tr0) ∨
      Ev.releasedFileTags ∉
        [Ev.ingested ['g'], Ev.persistedCollection, Ev.releasedFileTags]) ∧
    (∀ tag size coll,
      (Except.ok (99, 1, [(['g'], 7)]) :
          Except String (Nat × Nat × List (Str × Nat))) = Except.ok (tag, size, coll) →
      sampleStore.storeCollection coll = Except.ok tag) :=
  c4_tokens_released_after_persist sampleStore 1 [] singleFile
    (Except.ok (99, 1, [(['g'], 7)]))
    [Ev.ingested ['g'], Ev.persistedCollection, Ev.releasedFileTags] rfl

/-! ### Claim C5 -/

/-- C5 counterexample: a directory with exactly one regular file (and no
symlinks) whose name contains a backslash — a legal unix file name — does
not produce a one-entry collection: the whole import fails with the
invalid-path error, because the name fails canonicalization. -/
theorem c5_backslash_name_fails_import :
    countFiles backslashTree = 1 ∧
    (importM sampleStore 1 [] backslashTree).1 =
      Except.error "invalid path component" :=
  ⟨rfl, rfl⟩

/-- C5 amended: whenever `import` succeeds (every walked file name
canonicalizes and the store calls succeed) and at least one worker is
configured, the collection has exactly one entry per regular file of the
tree: symlinks are skipped (not followed) and contribute none, and
directories never appear as entries. -/
theorem c5_entry_count_on_success {H : Type} (st : Store H) (w : Nat)
    (sched : List Nat) (t : FsEntry) (tag : H) (size : Nat)
    (coll : List (Str × H)) (tr : List Ev) (hw : 1 ≤ w)
    (h : importM st w sched t = (Except.ok (tag, size, coll), tr)) :
    coll.length = countFiles t := by
  obtain ⟨ds, nts, hds, hci, hsize, hcoll, hsc, htr⟩ :=
    importM_ok_inv st w sched t tag size coll tr h
  have houts := collectIngest_ok (ingestOutputs st w sched ds) nts hci
  have hlen1 : coll.length = nts.length := by
    rw [hcoll]
    simp
  have hlen2 : (ingestOutputs st w sched ds).length = nts.length := by
    rw [houts]
    simp
  have hlen3 : (ingestOutputs st w sched ds).length = ds.length := by
    have hp := (bufferUnordered_perm w hw sched
      (ds.map fun nb => (nb.1, st.importFile nb.2))).length_eq
    simpa [ingestOutputs] using hp
  have hlen4 : ds.length = countFiles t := by
    have hcl := collectExcept_ok_length _ ds hds
    rw [List.length_map] at hcl
    rw [hcl]
    exact fileEntries_walkEntries_length [] t
  omega

/-- Witness for the amended C5 on a tree with two regular files, one
symlink and a subdirectory. -/
theorem c5_entry_count_on_success_witness :
    ([(['d', '/', 'a'], 1), (['d', '/', 'u', '/', 'b'], 2)] :
        List (Str × Nat)).length = countFiles symlinkTree :=
  c5_entry_count_on_success sampleStore 1 [] symlinkTree 99 3
    [(['d', '/', 'a'], 1), (['d', '/', 'u', '/', 'b'], 2)]
    [Ev.ingested ['d', '/', 'a'], Ev.ingested ['d', '/', 'u', '/', 'b'],
      Ev.persistedCollection, Ev.releasedFileTags]
    (by decide) rfl

/-! ### Claim C6 -/

/-- The size component of one completion-ordered ingestion output. -/
def sizeOfOutput {H : Type} : Str × Except String (H × Nat) → Nat
  | (_, Except.ok hs) => hs.2
  | (_, Except.error _) => 0

lemma sizeOfOutput_importFile {H : Type} (st : Store H) (nb : Str × List Nat) :
    sizeOfOutput (nb.1, st.importFile nb.2) = reportedSize st nb.2 := by
  cases hi : st.importFile nb.2 with
  | ok hs => simp [sizeOfOutput, reportedSize, hi]
  | error e => simp [sizeOfOutput, reportedSize, hi]

/-- C6: for every successful import (with at least one worker), the total
size returned is the sum of the byte sizes the store reported for the
individual files, in traversal order. -/
theorem c6_total_size_sum {H : Type} (st : Store H) (w : Nat) (sched : List Nat)
    (t : FsEntry) (ds : List (Str × List Nat)) (tag : H) (size : Nat)
    (coll : List (Str × H)) (tr : List Ev) (hw : 1 ≤ w)
    (hds : dataSources t = Except.ok ds)
    (h : importM st w sched t = (Except.ok (tag, size, coll), tr)) :
    size = (ds.map fun nb => reportedSize st nb.2).sum := by
  obtain ⟨ds0, nts, hds0, hci, hsize, hcoll, hsc, htr⟩ :=
    importM_ok_inv st w sched t tag size coll tr h
  have hdseq : ds0 = ds := Except.ok.inj (hds0.symm.trans hds)
  subst hdseq
  have houts := collectIngest_ok (ingestOutputs st w sched ds0) nts hci
  have h1 : (nts.map fun x => x.2.2) =
      (ingestOutputs st w sched ds0).map sizeOfOutput := by
    rw [houts, List.map_map]
    rfl
  have hperm := (bufferUnordered_perm w hw sched
    (ds0.map fun nb => (nb.1, st.importFile nb.2))).map sizeOfOutput
  have h2 : (ds0.map fun nb => (nb.1, st.importFile nb.2)).map sizeOfOutput =
      ds0.map fun nb => reportedSize st nb.2 := by
    rw [List.map_map]
    exact List.map_congr_left (fun nb _ => sizeOfOutput_importFile st nb)
  have h3 := hperm.sum_eq
  rw [h2] at h3
  rw [hsize, h1]
  exact h3

set_option maxRecDepth 8192 in
/-- Witness for C6: importing the single 1024-byte file yields total
size 1024, the size the store reported. -/
theorem c6_total_size_sum_witness :
    (1024 : Nat) =
      (([(['p'], List.replicate 1024 0)] : List (Str × List Nat)).map
        fun nb => reportedSize sampleStore nb.2).sum :=
  c6_total_size_sum sampleStore 1 [] bigFile [(['p'], List.replicate 1024 0)] 99 1024
    [(['p'], 0)]
    [Ev.ingested ['p'], Ev.persistedCollection, Ev.releasedFileTags]
    (by decide) rfl rfl

/-! ### Secret key, transport endpoint and the provide session -/

/-- Rust `get_or_create_secret` from `upload.rs` (lines 58-66): the
environment variable (when present) must parse as a secret key and a
parse failure is surfaced as the "invalid secret" error; a fresh key is
generated only when the variable is absent.  The environment lookup, the
parser and the generator are parameters of the model. -/
def get_or_create_secret {K : Type} (env : Option Str) (parseKey : Str → Option K)
    (generateKey : K) : Except String K :=
  match env with
  | some secret =>
    match parseKey secret with
    | some key => Except.ok key
    | none => Except.error "invalid secret"
  | none => Except.ok generateKey

/-- Model of `iroh_bytes::BlobFormat`: `HashSeq` marks a collection,
`Raw` a plain blob. -/
inductive BlobFormat : Type
  | raw : BlobFormat
  | hashSeq : BlobFormat
deriving DecidableEq

/-- Model of `BlobTicket::new(addr, hash, format)`: the three logical
fields of the locator. -/
structure BlobTicket (A H : Type) where
  addr : A
  hash : H
  format : BlobFormat

/-- The `while endpoint.my_derp().is_none()` polling loop of `provide`
(lines 232-234): `derp i` is what the endpoint reports at the i-th poll;
the loop exits with `true` at the first poll that reports an address and
is still running (`false`) if no poll within the given fuel does.  The
100ms sleep between polls is real time and is not part of the model; the
fuel plays the role of elapsed polling steps. -/
def waitDerp {D : Type} (derp : Nat → Option D) : Nat → Nat → Bool
  | 0, _ => false
  | fuel + 1, i => if (derp i).isSome then true else waitDerp derp fuel (i + 1)

/-- Outcome of one `provide` call: `exited` models `std::process::exit`,
`failed` an error returned to the caller, `pending` a call still inside
the polling loop after the given number of polls, and `ok` a minted
ticket. -/
inductive ProvideResult (A H : Type) : Type
  | exited (code : Nat) : ProvideResult A H
  | failed (e : String) : ProvideResult A H
  | pending : ProvideResult A H
  | ok (ticket : BlobTicket A H) : ProvideResult A H

/-- The startup-to-ticket part of `provide` from `upload.rs` (lines
208-237), in source order: obtain the secret key (an error propagates);
check the freshly named ephemeral working directory — if it already
exists the process exits with code 1 (lines 221-224); run `import`; poll
`my_derp()` until an address is resolved; then mint the ticket from the
resolved address, the collection's root identity, and the `HashSeq`
(collection) format.  The accept loop that follows ticket minting is out
of scope for the claims over this model. -/
def provideM {H K D A : Type} (st : Store H) (w : Nat) (sched : List Nat)
    (env : Option Str) (parseKey : Str → Option K) (generateKey : K)
    (dirExists : Bool) (derp : Nat → Option D) (fuel : Nat) (myAddr : A)
    (path : FsEntry) : ProvideResult A H :=
  match get_or_create_secret env parseKey generateKey with
  | Except.error e => ProvideResult.failed e
  | Except.ok _ =>
    if dirExists then ProvideResult.exited 1
    else
      match (importM st w sched path).1 with
      | Except.error e => ProvideResult.failed e
      | Except.ok (tag, _, _) =>
        if waitDerp derp fuel 0 then
          ProvideResult.ok { addr := myAddr, hash := tag, format := BlobFormat.hashSeq }
        else ProvideResult.pending

/-! ### Claim C2 -/

/-- C2: when the ephemeral working directory already exists at session
startup, `provide` does not return a recoverable error value — the model
of the source terminates the whole process with exit code 1
(`std::process::exit(1)` at line 223), for every store, tree, schedule
and endpoint. -/
theorem c2_collision_terminates_process {H K D A : Type} (st : Store H) (w : Nat)
    (sched : List Nat) (parseKey : Str → Option K) (generateKey : K)
    (derp : Nat → Option D) (fuel : Nat) (myAddr : A) (path : FsEntry) :
    provideM st w sched none parseKey generateKey true derp fuel myAddr path =
      ProvideResult.exited 1 := rfl

/-! ### Claim C9 -/

lemma waitDerp_eq_false {D : Type} (derp : Nat → Option D) :
    ∀ fuel start : Nat, (∀ i, start ≤ i → i < start + fuel → derp i = none) →
      waitDerp derp fuel start = false := by
  intro fuel
  induction fuel with
  | zero => intro start _; rfl
  | succ n ih =>
    intro start hnone
    have h0 : derp start = none := hnone start (le_refl _) (by omega)
    simp only [waitDerp, h0, Option.isSome_none, Bool.false_eq_true, if_false]
    apply ih
    intro i h1 h2
    exact hnone i (by omega) (by omega)

/-- C9: after a successful import, ticket minting stays pending while
every poll of the endpoint reports no resolved address, and as soon as
the polling loop observes a resolved address it returns a ticket whose
content identity is exactly the imported collection's root identity
(the token under which the collection was persisted) and whose format
marker is `HashSeq` — a collection, not a raw blob. -/
theorem c9_ticket_after_resolution {H K D A : Type} (st : Store H) (w : Nat)
    (sched : List Nat) (parseKey : Str → Option K) (generateKey : K)
    (derp : Nat → Option D) (myAddr : A) (t : FsEntry) (tag : H) (size : Nat)
    (coll : List (Str × H)) (tr : List Ev)
    (him : importM st w sched t = (Except.ok (tag, size, coll), tr)) :
    (∀ fuel, (∀ i, i < fuel → derp i = none) →
      provideM st w sched none parseKey generateKey false derp fuel myAddr t =
        ProvideResult.pending) ∧
    (∀ fuel, waitDerp derp fuel 0 = true →
      provideM st w sched none parseKey generateKey false derp fuel myAddr t =
        ProvideResult.ok { addr := myAddr, hash := tag, format := BlobFormat.hashSeq } ∧
      st.storeCollection coll = Except.ok tag) := by
  have hprov : ∀ fuel,
      provideM st w sched none parseKey generateKey false derp fuel myAddr t =
        if waitDerp derp fuel 0 then
          ProvideResult.ok { addr := myAddr, hash := tag, format := BlobFormat.hashSeq }
        else ProvideResult.pending := by
    intro fuel
    unfold provideM
    rw [him]
    rfl
  have hsc : st.storeCollection coll = Except.ok tag := by
    obtain ⟨ds, nts, _, _, _, _, hsc', _⟩ :=
      importM_ok_inv st w sched t tag size coll tr him
    exact hsc'
  constructor
  · intro fuel hnone
    rw [hprov fuel, waitDerp_eq_false derp fuel 0 (fun i _ h2 => hnone i (by omega))]
    rfl
  · intro fuel hres
    rw [hprov fuel, hres]
    exact ⟨rfl, hsc⟩

/-- A key parser that rejects every string. -/
def sampleParseNone : Str → Option Nat := fun _ => none

/-- A key parser that accepts exactly the string `ok` as key 7. -/
def sampleParseSeven : Str → Option Nat :=
  fun s => if s = ['o', 'k'] then some 7 else none

/-- An endpoint whose address resolves at the second poll. -/
def sampleDerp : Nat → Option Nat := fun i => if i = 1 then some 0 else none

/-- Witness for C9: with an endpoint that never resolves within four
polls the call is still pending; with one resolving at the second poll
the minted ticket carries the collection's root identity 99 and the
collection format marker. -/
theorem c9_ticket_after_resolution_witness :
    (provideM sampleStore 1 [] none sampleParseNone 5 false
        (fun _ => (none : Option Nat)) 4 0 singleFile = ProvideResult.pending) ∧
    (provideM sampleStore 1 [] none sampleParseNone 5 false sampleDerp 3 0 singleFile =
        ProvideResult.ok { addr := 0, hash := 99, format := BlobFormat.hashSeq } ∧
      sampleStore.storeCollection [(['g'], 7)] = Except.ok 99) :=
  ⟨(c9_ticket_after_resolution sampleStore 1 [] sampleParseNone 5
      (fun _ => (none : Option Nat)) 0 singleFile 99 1 [(['g'], 7)]
      [Ev.ingested ['g'], Ev.persistedCollection, Ev.releasedFileTags] rfl).1 4
      (fun i _ => rfl),
    (c9_ticket_after_resolution sampleStore 1 [] sampleParseNone 5 sampleDerp 0 singleFile
      99 1 [(['g'], 7)]
      [Ev.ingested ['g'], Ev.persistedCollection, Ev.releasedFileTags] rfl).2 3 (by decide)⟩

/-! ### Claim C10 -/

/-- C10: when the environment variable is present but its value does not
parse as a secret key, session startup fails with the "invalid secret"
error — it does not fall back to generating a fresh key; the generated
key is used exactly when the variable is absent, and a parsable value is
used as given. -/
theorem c10_invalid_secret_errors {K : Type} (parseKey : Str → Option K)
    (generateKey : K) (s : Str) :
    (parseKey s = none →
      get_or_create_secret (some s) parseKey generateKey =
        Except.error "invalid secret") ∧
    (get_or_create_secret none parseKey generateKey = Except.ok generateKey) ∧
    (∀ k, parseKey s = some k →
      get_or_create_secret (some s) parseKey generateKey = Except.ok k) := by
  refine ⟨?_, rfl, ?_⟩
  · intro h
    unfold get_or_create_secret
    dsimp only
    rw [h]
  · intro k h
    unfold get_or_create_secret
    dsimp only
    rw [h]

/-- Witness for C10: an unparsable value errors, absence generates, and a
parsable value is used. -/
theorem c10_invalid_secret_errors_witness :
    get_or_create_secret (some ['x']) sampleParseNone 5 =
      Except.error "invalid secret" ∧
    get_or_create_secret none sampleParseNone 5 = Except.ok 5 ∧
    get_or_create_secret (some ['o', 'k']) sampleParseSeven 5 = Except.ok 7 :=
  ⟨(c10_invalid_secret_errors sampleParseNone 5 ['x']).1 rfl,
    (c10_invalid_secret_errors sampleParseNone 5 ['x']).2.1,
    (c10_invalid_secret_errors sampleParseSeven 5 ['o', 'k']).2.2 7 (by decide)⟩
